import Mathlib

/-!
Verification of the section-boundary engine of the OverLeaf-MCP repository.

The Python sources (`src/latex_utils.py`, `src/server.py`) are shallowly
embedded as executable functions over `List Char`.  Python's regular
expressions are embedded by their operational semantics on the specific
patterns the code builds (literal-escaped command and title, greedy
whitespace, lazy body capture, lookahead stop tokens), and Python string
primitives (`strip`, `splitlines`, `replace`, `startswith`) are embedded
directly.  Character classes (`\s`, `\b`'s word characters) are taken in
their ASCII fragment, which covers every document the tools are used on.
-/

namespace OverleafMCP

/-- Whitespace, as in Python's `\s` and `str.strip` (ASCII fragment). -/
def isSpace (c : Char) : Bool :=
  c = ' ' || c = '\t' || c = '\n' || c = '\r' || c = '\x0b' || c = '\x0c'

/-- Word characters, as used by Python's `\b` boundary (ASCII fragment). -/
def isWordChar (c : Char) : Bool :=
  c.isAlpha || c.isDigit || c = '_'

/-- The character list of a string literal. -/
def lc (s : String) : List Char := s.data

/-- Python `str.lstrip()`. -/
def lstrip (s : List Char) : List Char := s.dropWhile isSpace

/-- Python `str.rstrip()`. -/
def rstrip (s : List Char) : List Char := (s.reverse.dropWhile isSpace).reverse

/-- Python `str.strip()`. -/
def strip (s : List Char) : List Char := rstrip (lstrip s)

/-- `normalize_latex_content` from `src/latex_utils.py`:
`s.replace("\\n", "\\\n")` — every two-character sequence backslash-`n`
becomes backslash-newline, scanning left to right without overlap. -/
def normalize_latex_content : List Char → List Char
  | [] => []
  | '\\' :: 'n' :: rest => '\\' :: '\n' :: normalize_latex_content rest
  | c :: rest => c :: normalize_latex_content rest

/-- `true` iff the text nowhere contains a backslash immediately followed by
the letter `n`. -/
def noBackslashN : List Char → Bool
  | [] => true
  | '\\' :: 'n' :: _ => false
  | _ :: rest => noBackslashN rest

theorem normalize_eq3 (c : Char) (rest : List Char)
    (hne : ∀ r, c = '\\' → rest = 'n' :: r → False) :
    normalize_latex_content (c :: rest) = c :: normalize_latex_content rest := by
  conv_lhs => unfold normalize_latex_content
  split
  · rename_i heq; exact absurd heq (by simp)
  · rename_i r heq
    rw [List.cons.injEq] at heq
    exact (hne r heq.1 heq.2).elim
  · rename_i c2 r2 hx heq
    rw [List.cons.injEq] at heq
    rw [heq.1, heq.2]

theorem noBackslashN_eq3 (c : Char) (rest : List Char)
    (hne : ∀ r, c = '\\' → rest = 'n' :: r → False) :
    noBackslashN (c :: rest) = noBackslashN rest := by
  conv_lhs => unfold noBackslashN
  split
  · rename_i heq; exact absurd heq (by simp)
  · rename_i r heq
    rw [List.cons.injEq] at heq
    exact (hne r heq.1 heq.2).elim
  · rename_i c2 r2 hx heq
    rw [List.cons.injEq] at heq
    rw [heq.2]

theorem normalize_head (s : List Char) :
    (normalize_latex_content s).head? = s.head? := by
  induction s using normalize_latex_content.induct with
  | case1 => rfl
  | case2 rest ih => rfl
  | case3 c rest hne ih => rw [normalize_eq3 c rest hne]; rfl

theorem noBackslashN_normalize (s : List Char) :
    noBackslashN (normalize_latex_content s) = true := by
  induction s using normalize_latex_content.induct with
  | case1 => rfl
  | case2 rest ih =>
    show noBackslashN ('\\' :: '\n' :: normalize_latex_content rest) = true
    have h1 : noBackslashN ('\\' :: '\n' :: normalize_latex_content rest)
        = noBackslashN ('\n' :: normalize_latex_content rest) := by
      apply noBackslashN_eq3
      intro r hc hr
      rw [List.cons.injEq] at hr
      exact absurd hr.1 (by decide)
    have h2 : noBackslashN ('\n' :: normalize_latex_content rest)
        = noBackslashN (normalize_latex_content rest) := by
      apply noBackslashN_eq3
      intro r hc _
      exact absurd hc (by decide)
    rw [h1, h2]; exact ih
  | case3 c rest hne ih =>
    rw [normalize_eq3 c rest hne]
    have hnx : ∀ r, c = '\\' → normalize_latex_content rest = 'n' :: r → False := by
      intro r hc habs
      have : (normalize_latex_content rest).head? = some 'n' := by rw [habs]; rfl
      rw [normalize_head] at this
      cases rest with
      | nil => simp at this
      | cons d t =>
        have hd : d = 'n' := by simpa using this
        exact hne t hc (by rw [hd])
    rw [noBackslashN_eq3 c _ hnx]
    exact ih

theorem normalize_of_noBackslashN (s : List Char) (h : noBackslashN s = true) :
    normalize_latex_content s = s := by
  induction s using normalize_latex_content.induct with
  | case1 => rfl
  | case2 rest ih => exact absurd h (by simp [noBackslashN])
  | case3 c rest hne ih =>
    rw [noBackslashN_eq3 c rest hne] at h
    rw [normalize_eq3 c rest hne, ih h]

/-- Claim C10: the Content Normalizer is idempotent — its output never
contains a backslash immediately followed by the letter `n`, hence running
it a second time changes nothing. -/
theorem C10_normalizer_idempotent (s : List Char) :
    noBackslashN (normalize_latex_content s) = true ∧
      normalize_latex_content (normalize_latex_content s)
        = normalize_latex_content s :=
  ⟨noBackslashN_normalize s,
    normalize_of_noBackslashN _ (noBackslashN_normalize s)⟩

/-- The header literal `\<command>{<title>}` (the `re.escape`d command and
title make the pattern match these characters literally). -/
def plainLit (cmd title : List Char) : List Char :=
  '\\' :: cmd ++ '{' :: title ++ ['}']

/-- The header literal `\<command>*{<title>}` (the optional starred form,
tried first because `\*?` is greedy). -/
def starLit (cmd title : List Char) : List Char :=
  '\\' :: cmd ++ '*' :: '{' :: title ++ ['}']

/-- Match of `\<cmd>\*?\{<title>\}` at the start of `s`: returns the length
of the matched literal. The starred variant is attempted first. -/
def headerAt (cmd title s : List Char) : Option Nat :=
  if (starLit cmd title).isPrefixOf s then some (starLit cmd title).length
  else if (plainLit cmd title).isPrefixOf s then some (plainLit cmd title).length
  else none

/-- Python's `\b` just after a literal whose last character is `prev`,
facing the remaining text. -/
def bAfter (prev : Char) : List Char → Bool
  | [] => isWordChar prev
  | c :: _ => isWordChar prev != isWordChar c

/-- Match of the lookahead alternative `\<w>\b` at the start of `s`. -/
def cmdStop (w s : List Char) : Bool :=
  (('\\' :: w).isPrefixOf s) && bAfter (w.getLastD '\\') (s.drop (w.length + 1))

/-- The lookahead of the boundary pattern built in `extract_section_body`
(`src/latex_utils.py`) and `update_overleaf_section` (`src/server.py`):
the body stops where the remaining text begins with `\<cmd>\b`, `\section\b`,
`\subsection\b`, `\chapter\b`, `\cvsection\b` or `\end{document}`.
(Note: `\subsubsection` is *not* an alternative of its own.) -/
def stopsHere (cmd s : List Char) : Bool :=
  cmdStop cmd s || cmdStop (lc "section") s || cmdStop (lc "subsection") s ||
    cmdStop (lc "chapter") s || cmdStop (lc "cvsection") s ||
    (lc "\\end{document}").isPrefixOf s

/-- The lazy body capture `(.*?)(?=(stop))`: splits `s` into the shortest
body followed by a position where the lookahead matches; `none` when no such
position exists (the overall regex then fails). -/
def findStop (cmd : List Char) : List Char → Option (List Char × List Char)
  | [] => none
  | c :: rest =>
    if stopsHere cmd (c :: rest) then some ([], c :: rest)
    else (findStop cmd rest).map (fun pr => (c :: pr.1, pr.2))

/-- `re.search` of the boundary pattern: positions are tried left to right;
at a match of the header literal, `\s*` greedily takes the whitespace run
(no stop token starts with whitespace, so backtracking into the run never
helps) and the lazy body runs to the first stop position.  On failure the
engine moves one position right.  Returns
`(text before the header, header literal, whitespace of group 1, body, rest)`. -/
def locateFrom (cmd title : List Char) : List Char → Option (List Char × List Char × List Char × List Char × List Char)
  | [] => none
  | c :: s =>
    match headerAt cmd title (c :: s) with
    | some n =>
      match findStop cmd (((c :: s).drop n).dropWhile isSpace) with
      | some (body, rest) =>
        some ([], (c :: s).take n, ((c :: s).drop n).takeWhile isSpace, body, rest)
      | none => (locateFrom cmd title s).map (fun r => (c :: r.1, r.2))
    | none => (locateFrom cmd title s).map (fun r => (c :: r.1, r.2))

/-- `extract_section_body` from `src/latex_utils.py`: the captured group 2
of the first match, or `None`. -/
def extract_section_body (full_text section_title heading_command : List Char) : Option (List Char) :=
  (locateFrom heading_command section_title full_text).map
    (fun r => r.2.2.2.1)

/-- The pure core of `update_overleaf_section` from `src/server.py`:
`regex.subn(replacer, text, count=1)` with
`replacer = group1 + normalize(new_body).strip() + "\n"` (group 1 is the
header literal together with the matched whitespace), returning the new text
and whether a substitution happened. -/
def replace_section (text section_title new_section_body heading_command : List Char) : List Char × Bool :=
  match locateFrom heading_command section_title text with
  | some (pre, hdr, ws, _body, rest) =>
    (pre ++ hdr ++ ws ++ strip (normalize_latex_content new_section_body)
      ++ '\n' :: rest, true)
  | none => (text, false)

/-- Claim C2: on the document
`\section{SKILLS}\nPython, Go\n\section{PROJECTS}\n...` the locator returns
body `"Python, Go\n"`; replacing it with `"Rust, C++"` produces a document
whose SKILLS body is `"Rust, C++\n"` while the `\section{PROJECTS}` heading
and body (the whole tail of the document) are byte-identical to before. -/
theorem C2_scenario :
    extract_section_body
      (lc "\\section{SKILLS}\nPython, Go\n" ++ lc "\\section{PROJECTS}\nBuilt an app.\n\\end{document}\n")
      (lc "SKILLS") (lc "section") = some (lc "Python, Go\n") ∧
    replace_section
      (lc "\\section{SKILLS}\nPython, Go\n" ++ lc "\\section{PROJECTS}\nBuilt an app.\n\\end{document}\n")
      (lc "SKILLS") (lc "Rust, C++") (lc "section")
      = (lc "\\section{SKILLS}\nRust, C++\n" ++ lc "\\section{PROJECTS}\nBuilt an app.\n\\end{document}\n", true) ∧
    extract_section_body
      (lc "\\section{SKILLS}\nRust, C++\n" ++ lc "\\section{PROJECTS}\nBuilt an app.\n\\end{document}\n")
      (lc "SKILLS") (lc "section") = some (lc "Rust, C++\n") ∧
    extract_section_body
      (lc "\\section{SKILLS}\nRust, C++\n" ++ lc "\\section{PROJECTS}\nBuilt an app.\n\\end{document}\n")
      (lc "PROJECTS") (lc "section")
      = extract_section_body
          (lc "\\section{SKILLS}\nPython, Go\n" ++ lc "\\section{PROJECTS}\nBuilt an app.\n\\end{document}\n")
          (lc "PROJECTS") (lc "section") := by
  refine ⟨by decide, by decide, by decide, by decide⟩

/-- Claim C5 (general part): when the locator finds nothing, the replacer
returns the document unchanged with `replaced = false` — exactly the
`count == 0` branch of `update_overleaf_section`, which reports
"not found, no changes made" and performs no write. -/
theorem C5_not_found_no_mutation (D t c B : List Char)
    (h : extract_section_body D t c = none) :
    replace_section D t B c = (D, false) := by
  unfold extract_section_body at h
  unfold replace_section
  cases hl : locateFrom c t D with
  | none => rfl
  | some r => rw [hl] at h; simp at h

/-- Witness for C5: title `"Intro"` requested against a document containing
only `\chapter{Other}` yields NotFound, and the replacer leaves the
document untouched. -/
theorem C5_not_found_no_mutation_witness :
    extract_section_body (lc "\\chapter{Other}\nBody.\n") (lc "Intro") (lc "section") = none ∧
    replace_section (lc "\\chapter{Other}\nBody.\n") (lc "Intro") (lc "new text") (lc "section")
      = (lc "\\chapter{Other}\nBody.\n", false) :=
  ⟨by decide,
    C5_not_found_no_mutation (lc "\\chapter{Other}\nBody.\n") (lc "Intro")
      (lc "section") (lc "new text") (by decide)⟩

/-- Python `str.splitlines()` (accumulator-based; handles `\n`, `\r`,
`\r\n`; no trailing empty line for a trailing terminator). -/
def splitlinesAux (acc : List Char) : List Char → List (List Char)
  | [] => if acc.isEmpty then [] else [acc.reverse]
  | '\r' :: '\n' :: rest => acc.reverse :: splitlinesAux [] rest
  | '\r' :: rest => acc.reverse :: splitlinesAux [] rest
  | '\n' :: rest => acc.reverse :: splitlinesAux [] rest
  | c :: rest => splitlinesAux (c :: acc) rest

/-- Python `str.splitlines()`. -/
def splitlines (s : List Char) : List (List Char) := splitlinesAux [] s

/-- `sep.join(parts)`. -/
def joinWith (sep : List Char) : List (List Char) → List Char
  | [] => []
  | [x] => x
  | x :: xs => x ++ sep ++ joinWith sep xs

/-- `c` ends a sentence for `re.split(r"(?<=[.!?])\s+", plain)`. -/
def sentEnd (c : Char) : Bool := c = '.' || c = '!' || c = '?'

/-- `re.split(r"(?<=[.!?])\s+", plain)`: a split point is a maximal
whitespace run immediately preceded by `.`, `!` or `?`; `skipping` is true
while consuming such a run, `prev` is the previous character, `acc` the
current part reversed. -/
def splitSentAux (skipping : Bool) (prev : Char) (acc : List Char) : List Char → List (List Char)
  | [] => [acc.reverse]
  | c :: rest =>
    if skipping && isSpace c then splitSentAux true ' ' acc rest
    else if !skipping && sentEnd prev && isSpace c then
      acc.reverse :: splitSentAux true ' ' [] rest
    else splitSentAux false c (c :: acc) rest

/-- The sentence split of `summarize_overleaf_section`. -/
def splitSentences (plain : List Char) : List (List Char) :=
  splitSentAux false ' ' [] plain

/-- The summary/example core of `summarize_overleaf_section`
(`src/server.py`, after `strip_latex_to_plain`): split into sentences,
strip and drop the empty ones, join the first `max_sentences` with single
spaces; the example is the first stripped nonempty line starting with
`"- "`, else the second sentence when one exists, else the first.
Returns `none` on the early-return paths (empty plain text / no sentences). -/
def summarize_core (plain : List Char) (max_sentences : Nat) : Option (List Char × List Char) :=
  if plain.isEmpty then none
  else
    let sentences := ((splitSentences plain).map strip).filter (fun s => !s.isEmpty)
    match sentences with
    | [] => none
    | s1 :: stail =>
      let summary := joinWith [' '] ((s1 :: stail).take max_sentences)
      let lines := ((splitlines plain).map strip).filter (fun l => !l.isEmpty)
      match lines.filter (fun l => (lc "- ").isPrefixOf l) with
      | b :: _ => some (summary, b)
      | [] =>
        match stail with
        | s2 :: _ => some (summary, s2)
        | [] => some (summary, s1)

/-- Counterexample to claim C6: on
`"Built a system. It scales well. - Handles 1M requests.\n"` with
`max_sentences = 3` the code does *not* return summary
`"Built a system. It scales well."` with example
`"- Handles 1M requests."`: the dash fragment is a third sentence (so it is
part of the summary), and no *line* of the input starts with `"- "` (the
input is a single line), so the example falls back to the second sentence. -/
theorem C6_counterexample :
    summarize_core (lc "Built a system. It scales well. - Handles 1M requests.\n") 3
      ≠ some (lc "Built a system. It scales well.", lc "- Handles 1M requests.") := by
  decide

/-- Claim C6, amended: `summarize` on
`"Built a system. It scales well. - Handles 1M requests.\n"` with
`max_sentences = 3` returns summary
`"Built a system. It scales well. - Handles 1M requests."` (all three
sentences) together with example `"It scales well."` (the second sentence,
since no input line starts with `"- "`). -/
theorem C6_amended :
    summarize_core (lc "Built a system. It scales well. - Handles 1M requests.\n") 3
      = some (lc "Built a system. It scales well. - Handles 1M requests.",
          lc "It scales well.") := by
  decide

theorem isPrefixOf_append_of_le {p s r : List Char} (h : p.length ≤ s.length) :
    p.isPrefixOf (s ++ r) = p.isPrefixOf s := by
  rw [Bool.eq_iff_iff]
  simp only [ List.isPrefixOf_iff_prefix]
  constructor
  · intro hp
    rw [List.prefix_iff_eq_take] at hp
    rw [List.take_append_of_le_length h] at hp
    rw [List.prefix_iff_eq_take]
    exact hp
  · intro hp
    exact hp.trans (List.prefix_append s r)

theorem isPrefixOf_false_of_lt {p s : List Char} (h : s.length < p.length) :
    p.isPrefixOf s = false := by
  cases hb : p.isPrefixOf s with
  | false => rfl
  | true =>
    have := ( List.isPrefixOf_iff_prefix.mp hb).length_le
    omega

theorem isPrefixOf_take (p s : List Char) (k : Nat) (h : p.length ≤ k) :
    p.isPrefixOf (s.take k) = p.isPrefixOf s := by
  rw [Bool.eq_iff_iff]
  simp only [ List.isPrefixOf_iff_prefix]
  constructor
  · intro hp
    exact hp.trans ( List.take_prefix k s)
  · intro hp
    rw [List.prefix_iff_eq_take] at hp
    rw [List.prefix_iff_eq_take, List.take_take, Nat.min_eq_left h]
    exact hp

theorem cmdStop_nil (w : List Char) : cmdStop w [] = false := by
  unfold cmdStop
  rw [isPrefixOf_false_of_lt (by simp)]
  rfl

theorem stopsHere_nil (cmd : List Char) : stopsHere cmd [] = false := by
  unfold stopsHere
  rw [cmdStop_nil, cmdStop_nil, cmdStop_nil, cmdStop_nil, cmdStop_nil]
  rw [isPrefixOf_false_of_lt (by decide)]
  rfl

theorem stopsHere_head {cmd s : List Char} (h : stopsHere cmd s = true) :
    ∃ t, s = '\\' :: t := by
  unfold stopsHere at h
  simp only [Bool.or_eq_true] at h
  have hpre : ∃ w : List Char, (('\\' :: w).isPrefixOf s) = true := by
    rcases h with ((((h | h) | h) | h) | h) | h
    · unfold cmdStop at h
      simp only [Bool.and_eq_true] at h
      exact ⟨cmd, h.1⟩
    · unfold cmdStop at h
      simp only [Bool.and_eq_true] at h
      exact ⟨lc "section", h.1⟩
    · unfold cmdStop at h
      simp only [Bool.and_eq_true] at h
      exact ⟨lc "subsection", h.1⟩
    · unfold cmdStop at h
      simp only [Bool.and_eq_true] at h
      exact ⟨lc "chapter", h.1⟩
    · unfold cmdStop at h
      simp only [Bool.and_eq_true] at h
      exact ⟨lc "cvsection", h.1⟩
    · refine ⟨lc "end{document}", ?_⟩
      have hx : lc "\\end{document}" = '\\' :: lc "end{document}" := by decide
      rw [← hx]
      exact h
  obtain ⟨w, hw⟩ := hpre
  obtain ⟨t, ht⟩ := List.isPrefixOf_iff_prefix.mp hw
  exact ⟨w ++ t, by rw [← ht]; rfl⟩

theorem findStop_sound {cmd : List Char} :
    ∀ {s b r : List Char}, findStop cmd s = some (b, r) →
      s = b ++ r ∧ stopsHere cmd r = true ∧
        (∀ b₁ b₂, b = b₁ ++ b₂ → b₂ = [] ∨ stopsHere cmd (b₂ ++ r) = false) := by
  intro s
  induction s with
  | nil => intro b r h; exact absurd h (by simp [findStop])
  | cons c rest ih =>
    intro b r h
    unfold findStop at h
    by_cases hs : stopsHere cmd (c :: rest) = true
    · rw [if_pos hs] at h
      obtain ⟨hb, hr⟩ : b = [] ∧ r = c :: rest := by
        constructor <;> (injection h with h1; rw [Prod.mk.injEq] at h1)
        · exact h1.1.symm
        · exact h1.2.symm
      subst hb; subst hr
      refine ⟨rfl, hs, ?_⟩
      intro b₁ b₂ hb12
      left
      exact (List.append_eq_nil.mp hb12.symm).2
    · rw [if_neg hs] at h
      cases hrec : findStop cmd rest with
      | none => rw [hrec] at h; simp at h
      | some pr =>
        rw [hrec] at h
        simp only [Option.map_some'] at h
        obtain ⟨b', r'⟩ := pr
        obtain ⟨hb, hr⟩ : b = c :: b' ∧ r = r' := by
          constructor <;> (injection h with h1; rw [Prod.mk.injEq] at h1)
          · exact h1.1.symm
          · exact h1.2.symm
        subst hb; subst hr
        obtain ⟨ih1, ih2, ih3⟩ := ih hrec
        refine ⟨by rw [ih1]; rfl, ih2, ?_⟩
        intro b₁ b₂ hb12
        cases b₁ with
        | nil =>
          simp only [List.nil_append] at hb12
          subst hb12
          right
          rw [List.cons_append, ← ih1]
          simpa using hs
        | cons d b₁t =>
          rw [List.cons_append, List.cons.injEq] at hb12
          exact ih3 b₁t b₂ hb12.2

theorem findStop_complete {cmd : List Char} :
    ∀ {v b : List Char}, b <:+ v → stopsHere cmd b = true →
      (findStop cmd v).isSome = true := by
  intro v
  induction v with
  | nil =>
    intro b hb hs
    rw [List.suffix_nil.mp hb] at hs
    rw [stopsHere_nil] at hs
    exact absurd hs (by simp)
  | cons c rest ih =>
    intro b hb hs
    unfold findStop
    by_cases hstop : stopsHere cmd (c :: rest) = true
    · rw [if_pos hstop]; rfl
    · rw [if_neg hstop]
      have hbne : b ≠ c :: rest := by
        intro habs; rw [habs] at hs; exact hstop hs
      have hb' : b <:+ rest := by
        obtain ⟨u, hu⟩ := hb
        cases u with
        | nil => exact absurd (by simpa using hu) hbne
        | cons d ut =>
          rw [List.cons_append, List.cons.injEq] at hu
          exact ⟨ut, hu.2⟩
      rw [Option.isSome_map']
      exact ih hb' hs

theorem findStop_append {cmd b r : List Char}
    (hr : stopsHere cmd r = true)
    (hno : ∀ b₁ b₂, b = b₁ ++ b₂ → b₂ ≠ [] → stopsHere cmd (b₂ ++ r) = false) :
    findStop cmd (b ++ r) = some (b, r) := by
  induction b with
  | nil =>
    obtain ⟨t, ht⟩ := stopsHere_head hr
    simp only [List.nil_append]
    rw [ht]
    unfold findStop
    rw [if_pos (by rw [← ht]; exact hr)]
  | cons c bt ih =>
    have hcstop : stopsHere cmd ((c :: bt) ++ r) = false :=
      hno [] (c :: bt) rfl (by simp)
    rw [List.cons_append] at hcstop
    rw [List.cons_append]
    unfold findStop
    rw [if_neg (by simp [hcstop])]
    have ihh : findStop cmd (bt ++ r) = some (bt, r) := by
      apply ih
      intro b₁ b₂ hb12 hb₂
      exact hno (c :: b₁) b₂ (by rw [hb12]; rfl) hb₂
    rw [ihh]
    rfl

theorem starLit_length (cmd title : List Char) :
    (starLit cmd title).length = (plainLit cmd title).length + 1 := by
  simp [starLit, plainLit]
  omega

theorem headerAt_ext {cmd title s₁ s₂ : List Char}
    (h : s₁.take (starLit cmd title).length = s₂.take (starLit cmd title).length) :
    headerAt cmd title s₁ = headerAt cmd title s₂ := by
  have hple : (plainLit cmd title).length ≤ (starLit cmd title).length := by
    rw [starLit_length]; omega
  unfold headerAt
  rw [← isPrefixOf_take (starLit cmd title) s₁ _ (le_refl _),
    ← isPrefixOf_take (plainLit cmd title) s₁ _ hple,
    ← isPrefixOf_take (starLit cmd title) s₂ _ (le_refl _),
    ← isPrefixOf_take (plainLit cmd title) s₂ _ hple, h]

theorem headerAt_some_le {cmd title s : List Char} {n : Nat}
    (h : headerAt cmd title s = some n) :
    n ≤ (starLit cmd title).length ∧ (plainLit cmd title).length ≤ n := by
  unfold headerAt at h
  split at h
  · have hn : n = (starLit cmd title).length := by
      injection h with h1; exact h1.symm
    rw [hn, starLit_length]; omega
  · split at h
    · have hn : n = (plainLit cmd title).length := by
        injection h with h1; exact h1.symm
      rw [hn, starLit_length]; omega
    · exact absurd h (by simp)

theorem headerAt_some_spec {cmd title s : List Char} {n : Nat}
    (h : headerAt cmd title s = some n) :
    s.take n = starLit cmd title ∨ s.take n = plainLit cmd title := by
  unfold headerAt at h
  split at h
  · rename_i hp
    have hn : n = (starLit cmd title).length := by
      injection h with h1; exact h1.symm
    left
    have := List.isPrefixOf_iff_prefix.mp hp
    rw [List.prefix_iff_eq_take] at this
    rw [hn, ← this]
  · split at h
    · rename_i hp
      have hn : n = (plainLit cmd title).length := by
        injection h with h1; exact h1.symm
      right
      have := List.isPrefixOf_iff_prefix.mp hp
      rw [List.prefix_iff_eq_take] at this
      rw [hn, ← this]
    · exact absurd h (by simp)

theorem star_not_prefix_plain_append (cmd title X : List Char) :
    (starLit cmd title).isPrefixOf (plainLit cmd title ++ X) = false := by
  cases hb : (starLit cmd title).isPrefixOf (plainLit cmd title ++ X) with
  | false => rfl
  | true =>
    exfalso
    have hpre := List.isPrefixOf_iff_prefix.mp hb
    have e1 : starLit cmd title
        = ('\\' :: cmd) ++ '*' :: ('{' :: title ++ ['}']) := by
      simp [starLit]
    have e2 : plainLit cmd title ++ X
        = ('\\' :: cmd) ++ '{' :: (title ++ '}' :: X) := by
      simp [plainLit]
    rw [e1, e2, List.prefix_append_right_inj, List.cons_prefix_cons] at hpre
    exact absurd hpre.1 (by decide)

theorem headerAt_variants {cmd title lit X : List Char}
    (h : lit = starLit cmd title ∨ lit = plainLit cmd title) :
    headerAt cmd title (lit ++ X) = some lit.length := by
  rcases h with h | h <;> subst h
  · unfold headerAt
    have hp : (starLit cmd title).isPrefixOf (starLit cmd title ++ X) = true :=
      List.isPrefixOf_iff_prefix.mpr (List.prefix_append _ _)
    rw [hp]
    simp
  · unfold headerAt
    rw [star_not_prefix_plain_append]
    have hp : (plainLit cmd title).isPrefixOf (plainLit cmd title ++ X) = true :=
      List.isPrefixOf_iff_prefix.mpr (List.prefix_append _ _)
    rw [hp]
    simp

theorem suffix_drop_of_le {b t : List Char} {n : Nat} (hb : b <:+ t)
    (h : n + b.length ≤ t.length) : b <:+ t.drop n := by
  obtain ⟨u, hu⟩ := hb
  have hn : n ≤ u.length := by
    have := congrArg List.length hu
    simp only [List.length_append] at this
    omega
  rw [← hu, List.drop_append_of_le_length hn]
  exact List.suffix_append _ _

theorem suffix_dropWhile_of_head {b : List Char} (c0 : Char)
    (hhead : b.head? = some c0) (hc : isSpace c0 = false) :
    ∀ {u : List Char}, b <:+ u → b <:+ u.dropWhile isSpace := by
  intro u
  induction u with
  | nil =>
    intro hb
    rw [List.suffix_nil.mp hb] at hhead
    simp at hhead
  | cons x xs ih =>
    intro hb
    rw [List.dropWhile_cons]
    by_cases hx : isSpace x = true
    · rw [if_pos hx]
      obtain ⟨u', hu'⟩ := hb
      cases u' with
      | nil =>
        exfalso
        have hbx : b = x :: xs := by simpa using hu'
        rw [hbx] at hhead
        simp only [List.head?_cons, Option.some.injEq] at hhead
        rw [hhead, hc] at hx
        exact absurd hx (by simp)
      | cons y u'' =>
        apply ih
        rw [List.cons_append, List.cons.injEq] at hu'
        exact ⟨u'', hu'.2⟩
    · rw [if_neg hx]
      exact hb

/-- No match of the header pattern starts strictly before the end of `pre`
in the document `pre ++ tail`. -/
def noHeaderBefore (cmd title pre tail : List Char) : Prop :=
  ∀ p₁ p₂, pre = p₁ ++ p₂ → p₂ ≠ [] → headerAt cmd title (p₂ ++ tail) = none


theorem locateFrom_sound {cmd title : List Char} :
    ∀ {D pre hdr ws body rest : List Char},
      locateFrom cmd title D = some (pre, hdr, ws, body, rest) →
      D = pre ++ (hdr ++ (ws ++ (body ++ rest))) ∧
      (hdr = starLit cmd title ∨ hdr = plainLit cmd title) ∧
      (∀ x ∈ ws, isSpace x = true) ∧
      (body = [] ∨ ∃ b0 bs, body = b0 :: bs ∧ isSpace b0 = false) ∧
      findStop cmd (body ++ rest) = some (body, rest) ∧
      noHeaderBefore cmd title pre (hdr ++ (ws ++ (body ++ rest))) := by
  intro D
  induction D with
  | nil =>
    intro pre hdr ws body rest h
    exact absurd h (by simp [locateFrom])
  | cons c s ih =>
    intro pre hdr ws body rest h
    unfold locateFrom at h
    split at h
    · rename_i n hh
      split at h
      · rename_i fb fr hfs
        simp only [Option.some.injEq, Prod.mk.injEq] at h
        obtain ⟨h1, h2, h3, h4, h5⟩ := h
        subst h1; subst h2; subst h3; subst h4; subst h5
        obtain ⟨f1, f2, f3⟩ := findStop_sound hfs
        refine ⟨?_, headerAt_some_spec hh, ?_, ?_, ?_, ?_⟩
        · simp only [List.nil_append]
          rw [← f1, List.takeWhile_append_dropWhile, List.take_append_drop]
        · intro x hx
          exact List.mem_takeWhile_imp hx
        · cases fb with
          | nil => exact Or.inl rfl
          | cons b0 bs =>
            right
            refine ⟨b0, bs, rfl, ?_⟩
            have hmatch := List.head?_dropWhile_not isSpace ((c :: s).drop n)
            rw [f1] at hmatch
            simp only [List.cons_append, List.head?_cons] at hmatch
            exact hmatch
        · rw [f1] at hfs
          exact hfs
        · intro p₁ p₂ hsplit hne
          exact absurd (List.append_eq_nil.mp hsplit.symm).2 hne
      · rename_i hfs
        cases hrec : locateFrom cmd title s with
        | none => rw [hrec] at h; simp at h
        | some r =>
          rw [hrec] at h
          obtain ⟨rp, rh, rw2, rb, rr⟩ := r
          simp only [Option.map_some', Option.some.injEq, Prod.mk.injEq] at h
          obtain ⟨h1, h2, h3, h4, h5⟩ := h
          subst h1; subst h2; subst h3; subst h4; subst h5
          obtain ⟨i1, i2, i3, i4, i5, i6⟩ := ih hrec
          exfalso
          have hstop : stopsHere cmd rr = true := (findStop_sound i5).2.1
          have hrs : rr <:+ s := by
            rw [i1]
            exact (((List.suffix_append rb rr).trans
              (List.suffix_append rw2 _)).trans
                (List.suffix_append rh _)).trans (List.suffix_append rp _)
          have hrh : (plainLit cmd title).length ≤ rh.length := by
            rcases i2 with h | h
            · rw [h, starLit_length]
              omega
            · rw [h]
          have hslen : s.length
              = rp.length + (rh.length + (rw2.length + (rb.length + rr.length))) := by
            rw [i1]; simp
          have hn := (headerAt_some_le hh).1
          rw [starLit_length] at hn
          have hlen : n + rr.length ≤ (c :: s).length := by
            simp only [List.length_cons]
            omega
          have hsuf1 : rr <:+ (c :: s).drop n :=
            suffix_drop_of_le (hrs.trans (List.suffix_cons c s)) hlen
          obtain ⟨t, ht⟩ := stopsHere_head hstop
          have hsuf2 : rr <:+ ((c :: s).drop n).dropWhile isSpace := by
            apply suffix_dropWhile_of_head '\\' _ (by decide) hsuf1
            rw [ht]; rfl
          have hcomp := findStop_complete hsuf2 hstop
          rw [hfs] at hcomp
          simp at hcomp
    · rename_i hh
      cases hrec : locateFrom cmd title s with
      | none => rw [hrec] at h; simp at h
      | some r =>
        rw [hrec] at h
        obtain ⟨rp, rh, rw2, rb, rr⟩ := r
        simp only [Option.map_some', Option.some.injEq, Prod.mk.injEq] at h
        obtain ⟨h1, h2, h3, h4, h5⟩ := h
        subst h1; subst h2; subst h3; subst h4; subst h5
        obtain ⟨i1, i2, i3, i4, i5, i6⟩ := ih hrec
        refine ⟨by rw [i1]; rfl, i2, i3, i4, i5, ?_⟩
        intro p₁ p₂ hsplit hne
        cases p₁ with
        | nil =>
          have hp2 : p₂ = c :: rp := by simpa using hsplit.symm
          rw [hp2, List.cons_append, ← i1]
          exact hh
        | cons d p₁t =>
          rw [List.cons_append, List.cons.injEq] at hsplit
          exact i6 p₁t p₂ hsplit.2 hne

theorem headerAt_nil (cmd title : List Char) : headerAt cmd title [] = none := by
  unfold headerAt
  rw [isPrefixOf_false_of_lt (by simp [starLit]),
    isPrefixOf_false_of_lt (by simp [plainLit])]
  rfl

theorem locateFrom_complete {cmd title : List Char} :
    ∀ (pre : List Char) {tail : List Char} {n : Nat} {body rest : List Char},
      noHeaderBefore cmd title pre tail →
      headerAt cmd title tail = some n →
      findStop cmd ((tail.drop n).dropWhile isSpace) = some (body, rest) →
      locateFrom cmd title (pre ++ tail)
        = some (pre, tail.take n, (tail.drop n).takeWhile isSpace, body, rest) := by
  intro pre
  induction pre with
  | nil =>
    intro tail n body rest hnb hhd hfs
    cases tail with
    | nil => rw [headerAt_nil] at hhd; exact absurd hhd (by simp)
    | cons c s =>
      simp only [List.nil_append]
      unfold locateFrom
      simp only [hhd, hfs]
  | cons d pret ih =>
    intro tail n body rest hnb hhd hfs
    have hdnone : headerAt cmd title ((d :: pret) ++ tail) = none :=
      hnb [] (d :: pret) rfl (by simp)
    rw [List.cons_append] at hdnone
    have hnb' : noHeaderBefore cmd title pret tail := by
      intro p₁ p₂ hsp hne
      exact hnb (d :: p₁) p₂ (by rw [hsp]; rfl) hne
    rw [List.cons_append]
    unfold locateFrom
    simp only [hdnone, ih hnb' hhd hfs, Option.map_some']

theorem rstrip_decomp (s : List Char) :
    s = rstrip s ++ (s.reverse.takeWhile isSpace).reverse ∧
      ∀ x ∈ (s.reverse.takeWhile isSpace).reverse, isSpace x = true := by
  constructor
  · unfold rstrip
    rw [← List.reverse_append, List.takeWhile_append_dropWhile, List.reverse_reverse]
  · intro x hx
    rw [List.mem_reverse] at hx
    exact List.mem_takeWhile_imp hx

theorem strip_head (x : List Char) :
    strip x = [] ∨ ∃ c0 t, strip x = c0 :: t ∧ isSpace c0 = false := by
  cases hs : strip x with
  | nil => exact Or.inl rfl
  | cons c0 t =>
    right
    refine ⟨c0, t, rfl, ?_⟩
    have hy := (rstrip_decomp (lstrip x)).1
    have hs' : rstrip (lstrip x) = c0 :: t := hs
    have hhead : (lstrip x).head? = some c0 := by
      rw [hy, hs']
      rfl
    have hmatch := List.head?_dropWhile_not isSpace x
    have hlx : x.dropWhile isSpace = lstrip x := rfl
    rw [hlx, hhead] at hmatch
    exact hmatch

theorem strip_eq_rstrip_of_head {body : List Char}
    (h : body = [] ∨ ∃ b0 bs, body = b0 :: bs ∧ isSpace b0 = false) :
    strip body = rstrip body := by
  rcases h with h | ⟨b0, bs, hb, hsp⟩
  · rw [h]; rfl
  · unfold strip lstrip
    rw [hb, List.dropWhile_cons, if_neg (by rw [hsp]; simp)]

/-- Counterexample to claim C1: in
`\section{A}\nx\n\subsubsection{B}\ny\n\section{C}\nz\n` the first
heading-like token after `\section{A}` is a `\subsubsection` heading, yet
the returned body does **not** end immediately before it (that would be
`"x\n"`): the lookahead has no `\subsubsection` alternative, so the body
runs on to `\section{C}`. -/
theorem C1_counterexample :
    extract_section_body
      (lc "\\section{A}\nx\n\\subsubsection{B}\ny\n\\section{C}\nz\n")
      (lc "A") (lc "section")
      = some (lc "x\n\\subsubsection{B}\ny\n") ∧
    lc "x\n\\subsubsection{B}\ny\n" ≠ lc "x\n" :=
  ⟨by decide, by decide⟩

/-- Claim C1, amended: the universal stop-set is
`{<requested command>, section, subsection, chapter, cvsection}` together
with `\end{document}` — `\subsubsection` is **not** a universal stop marker
(it ends a body only when `subsubsection` is the requested command, via the
`\<cmd>\b` alternative).  Whenever a body is returned, the document
decomposes as `pre ++ header ++ whitespace ++ body ++ rest` where the
stop-set matches at `rest` and at no position inside `body`: the body ends
immediately before the first stop-set token, not before a
`\subsubsection`. -/
theorem C1_amended {D t c body : List Char}
    (h : extract_section_body D t c = some body) :
    ∃ pre hdr ws rest,
      D = pre ++ (hdr ++ (ws ++ (body ++ rest))) ∧
      (hdr = starLit c t ∨ hdr = plainLit c t) ∧
      stopsHere c rest = true ∧
      (∀ b₁ b₂, body = b₁ ++ b₂ → b₂ = [] ∨ stopsHere c (b₂ ++ rest) = false) := by
  unfold extract_section_body at h
  cases hl : locateFrom c t D with
  | none => rw [hl] at h; simp at h
  | some r =>
    rw [hl] at h
    obtain ⟨rp, rh, rw2, rb, rr⟩ := r
    simp only [Option.map_some', Option.some.injEq] at h
    subst h
    obtain ⟨i1, i2, _, _, i5, _⟩ := locateFrom_sound hl
    obtain ⟨f1, f2, f3⟩ := findStop_sound i5
    exact ⟨rp, rh, rw2, rr, i1, i2, f2, f3⟩

/-- Witness for the amended C1, at the document of the counterexample. -/
theorem C1_amended_witness :
    ∃ pre hdr ws rest,
      lc "\\section{A}\nx\n\\subsubsection{B}\ny\n\\section{C}\nz\n"
        = pre ++ (hdr ++ (ws ++ (lc "x\n\\subsubsection{B}\ny\n" ++ rest))) ∧
      (hdr = starLit (lc "section") (lc "A") ∨
        hdr = plainLit (lc "section") (lc "A")) ∧
      stopsHere (lc "section") rest = true ∧
      (∀ b₁ b₂, lc "x\n\\subsubsection{B}\ny\n" = b₁ ++ b₂ →
        b₂ = [] ∨ stopsHere (lc "section") (b₂ ++ rest) = false) :=
  C1_amended (by decide)

/-- Counterexample to claim C4: for the document
`\section{T}\n\node{x}\n\section{U}\ny\n` the extracted body of `T` is
`"\node{x}\n"`; replacing the section with its own body first runs the
Content Normalizer, which rewrites the backslash-`n` of `\node` into
backslash-newline — a change to *non-whitespace* characters (the letter `n`
disappears), not a trailing-whitespace normalization. -/
theorem C4_counterexample :
    extract_section_body (lc "\\section{T}\n\\node{x}\n\\section{U}\ny\n")
      (lc "T") (lc "section") = some (lc "\\node{x}\n") ∧
    ((replace_section (lc "\\section{T}\n\\node{x}\n\\section{U}\ny\n")
        (lc "T") (lc "\\node{x}\n") (lc "section")).1.filter
          (fun ch => !(isSpace ch)))
      ≠ ((lc "\\section{T}\n\\node{x}\n\\section{U}\ny\n").filter
          (fun ch => !(isSpace ch))) :=
  ⟨by decide, by decide⟩

/-- Claim C4, amended: replacing a located section with its own extracted
body changes only trailing-whitespace normalization of that body — provided
the body contains no literal backslash-`n` pair (otherwise the Content
Normalizer rewrites it first, changing non-whitespace characters).  The
heading, the whitespace after it, and all text outside the body stay
byte-identical; the body's trailing whitespace becomes a single newline. -/
theorem C4_amended {D t c body : List Char}
    (h : extract_section_body D t c = some body)
    (hn : normalize_latex_content body = body) :
    ∃ pre hdr ws rest tws,
      D = pre ++ (hdr ++ (ws ++ (body ++ rest))) ∧
      body = rstrip body ++ tws ∧
      (∀ x ∈ tws, isSpace x = true) ∧
      replace_section D t body c
        = (pre ++ (hdr ++ (ws ++ (rstrip body ++ ('\n' :: rest)))), true) := by
  unfold extract_section_body at h
  cases hl : locateFrom c t D with
  | none => rw [hl] at h; simp at h
  | some r =>
    rw [hl] at h
    obtain ⟨rp, rh, rw2, rb, rr⟩ := r
    simp only [Option.map_some', Option.some.injEq] at h
    subst h
    obtain ⟨i1, i2, i3, i4, i5, i6⟩ := locateFrom_sound hl
    obtain ⟨d1, d2⟩ := rstrip_decomp rb
    refine ⟨rp, rh, rw2, rr, (rb.reverse.takeWhile isSpace).reverse,
      i1, d1, d2, ?_⟩
    unfold replace_section
    simp only [hl]
    rw [hn, strip_eq_rstrip_of_head i4]
    simp [List.append_assoc]

/-- Witness for the amended C4: replacing SKILLS by its own body
`"Python, Go\n"` (no backslash-`n` pair) normalizes only the trailing
newline. -/
theorem C4_amended_witness :
    ∃ pre hdr ws rest tws,
      lc "\\section{SKILLS}\nPython, Go\n\\section{PROJECTS}\nEnd.\n"
        = pre ++ (hdr ++ (ws ++ (lc "Python, Go\n" ++ rest))) ∧
      lc "Python, Go\n" = rstrip (lc "Python, Go\n") ++ tws ∧
      (∀ x ∈ tws, isSpace x = true) ∧
      replace_section (lc "\\section{SKILLS}\nPython, Go\n\\section{PROJECTS}\nEnd.\n")
        (lc "SKILLS") (lc "Python, Go\n") (lc "section")
        = (pre ++ (hdr ++ (ws ++ (rstrip (lc "Python, Go\n") ++ ('\n' :: rest)))), true) :=
  C4_amended (by decide) (by decide)

theorem locateFrom_isSome_cons {cmd title : List Char} (c : Char) {s : List Char}
    (h : (locateFrom cmd title s).isSome = true) :
    (locateFrom cmd title (c :: s)).isSome = true := by
  unfold locateFrom
  cases hh : headerAt cmd title (c :: s) with
  | some n =>
    cases hfs : findStop cmd (((c :: s).drop n).dropWhile isSpace) with
    | some pr =>
      obtain ⟨fb, fr⟩ := pr
      simp only [hh, hfs]
      rfl
    | none =>
      simp only [hh, hfs, Option.isSome_map']
      exact h
  | none =>
    simp only [hh, Option.isSome_map']
    exact h

theorem locate_of_lit_and_stop {cmd title : List Char} :
    ∀ {D pre lit mid suf : List Char},
      D = pre ++ (lit ++ (mid ++ suf)) →
      (lit = starLit cmd title ∨ lit = plainLit cmd title) →
      stopsHere cmd suf = true →
      (locateFrom cmd title D).isSome = true := by
  intro D
  induction D with
  | nil =>
    intro pre lit mid suf hD hlit hstop
    exfalso
    obtain ⟨h1, h2⟩ := List.append_eq_nil.mp hD.symm
    obtain ⟨h3, h4⟩ := List.append_eq_nil.mp h2
    rcases hlit with h | h <;> rw [h] at h3 <;> simp [starLit, plainLit] at h3
  | cons c s ih =>
    intro pre lit mid suf hD hlit hstop
    cases pre with
    | cons d pret =>
      rw [List.cons_append, List.cons.injEq] at hD
      exact locateFrom_isSome_cons c (ih hD.2 hlit hstop)
    | nil =>
      simp only [List.nil_append] at hD
      have hhd : headerAt cmd title (c :: s) = some lit.length := by
        rw [hD]; exact headerAt_variants hlit
      unfold locateFrom
      cases hfs : findStop cmd (((c :: s).drop lit.length).dropWhile isSpace) with
      | some pr =>
        obtain ⟨fb, fr⟩ := pr
        simp only [hhd, hfs]
        rfl
      | none =>
        exfalso
        have hsuf : suf <:+ (c :: s) := by
          rw [hD]
          exact (List.suffix_append mid suf).trans (List.suffix_append lit _)
        have hlen : lit.length + suf.length ≤ (c :: s).length := by
          have hl2 := congrArg List.length hD
          simp only [List.length_cons, List.length_append] at hl2 ⊢
          omega
        have h1 : suf <:+ (c :: s).drop lit.length := suffix_drop_of_le hsuf hlen
        obtain ⟨t, ht⟩ := stopsHere_head hstop
        have h2 : suf <:+ ((c :: s).drop lit.length).dropWhile isSpace := by
          apply suffix_dropWhile_of_head '\\' _ (by decide) h1
          rw [ht]; rfl
        have hcomp := findStop_complete h2 hstop
        rw [hfs] at hcomp
        simp at hcomp

/-- Counterexample to claim C7: the literal text `\section{T}` occurs in the
document `\section{T}\nx`, yet `locate` returns NotFound — the lookahead
needs a stop token (another heading or `\end{document}`) somewhere after the
heading, and this document has none.  So "matches iff the literal text
occurs" fails in the right-to-left direction. -/
theorem C7_counterexample :
    lc "\\section{T}\nx" = plainLit (lc "section") (lc "T") ++ lc "\nx" ∧
    extract_section_body (lc "\\section{T}\nx") (lc "T") (lc "section") = none :=
  ⟨by decide, by decide⟩

/-- Claim C7, amended: the caller-supplied title and command are matched
literally — the locator finds a section **iff** the literal character
sequence `\<command>{<title>}` (or its starred form) occurs in the document
*and* some universal stop token occurs at or after the end of that literal.
Structural metacharacters in the inputs cannot alter the pattern: the
characterization below mentions only the literal characters of the command
and title. -/
theorem C7_amended (D t c : List Char) :
    (extract_section_body D t c).isSome = true ↔
      ∃ pre lit mid suf,
        D = pre ++ (lit ++ (mid ++ suf)) ∧
        (lit = starLit c t ∨ lit = plainLit c t) ∧
        stopsHere c suf = true := by
  unfold extract_section_body
  rw [Option.isSome_map']
  constructor
  · intro h
    cases hl : locateFrom c t D with
    | none => rw [hl] at h; simp at h
    | some r =>
      obtain ⟨rp, rh, rw2, rb, rr⟩ := r
      obtain ⟨i1, i2, _, _, i5, _⟩ := locateFrom_sound hl
      exact ⟨rp, rh, rw2 ++ rb, rr, by rw [i1]; simp [List.append_assoc], i2,
        (findStop_sound i5).2.1⟩
  · rintro ⟨pre, lit, mid, suf, hD, hlit, hstop⟩
    exact locate_of_lit_and_stop hD hlit hstop

/-- `true` iff no nonempty suffix of the text begins with a universal stop
token (`\b` at end of the text faces a non-word position). -/
def noStopIn (cmd : List Char) : List Char → Bool
  | [] => true
  | c :: rest => !(stopsHere cmd (c :: rest)) && noStopIn cmd rest

theorem isPrefixOf_append_eq_of_getLast {tok s r : List Char}
    (hlast : s.getLast? = some '\n') (htok : '\n' ∉ tok) :
    tok.isPrefixOf (s ++ r) = tok.isPrefixOf s := by
  by_cases hle : tok.length ≤ s.length
  · exact isPrefixOf_append_of_le hle
  · push_neg at hle
    rw [isPrefixOf_false_of_lt hle]
    cases hb : tok.isPrefixOf (s ++ r) with
    | false => rfl
    | true =>
      exfalso
      have hpre := List.isPrefixOf_iff_prefix.mp hb
      have hsp : s <+: tok :=
        List.prefix_of_prefix_length_le (List.prefix_append s r) hpre
          (le_of_lt hle)
      exact htok (hsp.subset (List.mem_of_getLast?_eq_some hlast))

theorem cmdStop_append_eq {w s r : List Char}
    (hlast : s.getLast? = some '\n')
    (hw : '\n' ∉ w) (hr : r.head? = some '\\') :
    cmdStop w (s ++ r) = cmdStop w s := by
  unfold cmdStop
  have htok : '\n' ∉ ('\\' :: w) := by
    intro hmem
    rcases List.mem_cons.mp hmem with h | h
    · exact absurd h (by decide)
    · exact hw h
  rw [isPrefixOf_append_eq_of_getLast hlast htok]
  cases hp : ('\\' :: w).isPrefixOf s with
  | false => simp
  | true =>
    simp only [Bool.true_and]
    have hlen : w.length + 1 ≤ s.length := by
      have := ( List.isPrefixOf_iff_prefix.mp hp).length_le
      simpa using this
    rw [List.drop_append_of_le_length hlen]
    by_cases hcase : w.length + 1 < s.length
    · have hne : s.drop (w.length + 1) ≠ [] := by
        intro habs
        have := congrArg List.length habs
        simp at this
        omega
      cases hd : s.drop (w.length + 1) with
      | nil => exact absurd hd hne
      | cons x xs =>
        rw [List.cons_append]
        rfl
    · have hk : w.length + 1 = s.length := by omega
      rw [hk, List.drop_length]
      obtain ⟨r', hr'⟩ : ∃ r', r = '\\' :: r' := by
        cases r with
        | nil => simp at hr
        | cons a tr =>
          simp only [List.head?_cons, Option.some.injEq] at hr
          exact ⟨tr, by rw [hr]⟩
      rw [hr']
      simp only [List.nil_append, bAfter]
      have hbs : isWordChar '\\' = false := by decide
      rw [hbs]
      cases isWordChar (w.getLastD '\\') <;> rfl

theorem stopsHere_append_eq {cmd s r : List Char}
    (hlast : s.getLast? = some '\n')
    (hcmd : '\n' ∉ cmd) (hr : r.head? = some '\\') :
    stopsHere cmd (s ++ r) = stopsHere cmd s := by
  unfold stopsHere
  rw [cmdStop_append_eq hlast hcmd hr,
    cmdStop_append_eq hlast (by decide) hr,
    cmdStop_append_eq hlast (by decide) hr,
    cmdStop_append_eq hlast (by decide) hr,
    cmdStop_append_eq hlast (by decide) hr,
    isPrefixOf_append_eq_of_getLast hlast (by decide)]

theorem noStopIn_spec {cmd : List Char} :
    ∀ {l s₁ s₂ : List Char}, noStopIn cmd l = true → l = s₁ ++ s₂ → s₂ ≠ [] →
      stopsHere cmd s₂ = false := by
  intro l
  induction l with
  | nil =>
    intro s₁ s₂ h hl hne
    exact absurd (List.append_eq_nil.mp hl.symm).2 hne
  | cons c rest ih =>
    intro s₁ s₂ h hl hne
    unfold noStopIn at h
    simp only [Bool.and_eq_true, Bool.not_eq_true'] at h
    cases s₁ with
    | nil =>
      simp only [List.nil_append] at hl
      rw [← hl]
      exact h.1
    | cons d s₁t =>
      rw [List.cons_append, List.cons.injEq] at hl
      exact ih h.2 hl.2 hne

/-- Counterexample to claim C3: with replacement body
`"new\n\section{U}\nmore"` — which contains the stop token `\section` —
replacing section `T` of `\section{T}\nold\n\end{document}\n` twice does
not equal replacing it once: on the second pass the body capture stops at
the `\section{U}` *inside* the previously inserted body, so the tail of the
inserted body is duplicated. -/
theorem C3_counterexample :
    replace_section
      (replace_section (lc "\\section{T}\nold\n\\end{document}\n") (lc "T")
        (lc "new\n\\section{U}\nmore") (lc "section")).1
      (lc "T") (lc "new\n\\section{U}\nmore") (lc "section")
      ≠ replace_section (lc "\\section{T}\nold\n\\end{document}\n") (lc "T")
          (lc "new\n\\section{U}\nmore") (lc "section") := by
  decide

/-- Claim C3, amended: section-body replacement is idempotent in effect
*provided* the normalized, trimmed replacement body is nonempty and
contains no universal stop token (and the command name contains no
newline): `replace(replace(D,t,c,B),t,c,B) = replace(D,t,c,B)`, and
whenever the section was found the resulting document's target body is
exactly `normalize(B).strip() + "\n"`.  Without the proviso the claim fails
(see the counterexample: a stop token inside the body truncates the second
match; an empty trimmed body grows a newline on every application). -/
theorem C3_amended {D t c B : List Char}
    (hne : strip (normalize_latex_content B) ≠ [])
    (hc : '\n' ∉ c)
    (hns : noStopIn c (strip (normalize_latex_content B) ++ ['\n']) = true) :
    replace_section (replace_section D t B c).1 t B c
      = replace_section D t B c ∧
    ((replace_section D t B c).2 = true →
      extract_section_body (replace_section D t B c).1 t c
        = some (strip (normalize_latex_content B) ++ ['\n'])) := by
  set B2 := strip (normalize_latex_content B) with hB2
  cases hl : locateFrom c t D with
  | none =>
    have h1 : replace_section D t B c = (D, false) := by
      unfold replace_section
      simp only [hl]
    rw [h1]
    refine ⟨?_, ?_⟩
    · exact h1
    · intro habs
      simp at habs
  | some r =>
    obtain ⟨rp, rh, rw2, rb, rr⟩ := r
    obtain ⟨i1, i2, i3, i4, i5, i6⟩ := locateFrom_sound hl
    have hR1 : replace_section D t B c
        = (rp ++ (rh ++ (rw2 ++ (B2 ++ ('\n' :: rr)))), true) := by
      unfold replace_section
      simp only [hl, ← hB2]
      simp [List.append_assoc]
    have hstop_rr : stopsHere c rr = true := (findStop_sound i5).2.1
    obtain ⟨rrt, hrrt⟩ := stopsHere_head hstop_rr
    have hB2head := strip_head (normalize_latex_content B)
    rw [← hB2] at hB2head
    rcases hB2head with h | ⟨b0, bs, hb0, hsp0⟩
    · exact absurd h hne
    have hhd2 : headerAt c t (rh ++ (rw2 ++ (B2 ++ ('\n' :: rr))))
        = some rh.length := headerAt_variants i2
    have hdrop : (rh ++ (rw2 ++ (B2 ++ ('\n' :: rr)))).drop rh.length
        = rw2 ++ (B2 ++ ('\n' :: rr)) := List.drop_left _ _
    have htake : (rh ++ (rw2 ++ (B2 ++ ('\n' :: rr)))).take rh.length = rh :=
      List.take_left _ _
    have htw : (rw2 ++ (B2 ++ ('\n' :: rr))).takeWhile isSpace = rw2 := by
      rw [List.takeWhile_append_of_pos i3, hb0, List.cons_append,
        List.takeWhile_cons, if_neg (by rw [hsp0]; simp)]
      simp
    have hdw : (rw2 ++ (B2 ++ ('\n' :: rr))).dropWhile isSpace
        = B2 ++ ('\n' :: rr) := by
      rw [List.dropWhile_append_of_pos i3, hb0, List.cons_append,
        List.dropWhile_cons, if_neg (by rw [hsp0]; simp)]
    have hfs2 : findStop c (B2 ++ ('\n' :: rr)) = some (B2 ++ ['\n'], rr) := by
      have heq : B2 ++ ('\n' :: rr) = (B2 ++ ['\n']) ++ rr := by simp
      rw [heq]
      apply findStop_append hstop_rr
      intro b₁ b₂ hb12 hbne
      have hlast : b₂.getLast? = some '\n' := by
        have h1 : (b₁ ++ b₂).getLast? = b₂.getLast? := by
          rw [List.getLast?_append]
          cases hx : b₂.getLast? with
          | none =>
            exact absurd (List.getLast?_eq_none_iff.mp hx) hbne
          | some a => rfl
        rw [← hb12, List.getLast?_concat] at h1
        exact h1.symm
      rw [stopsHere_append_eq hlast hc (by rw [hrrt]; rfl)]
      exact noStopIn_spec hns hb12 hbne
    have hrh : (plainLit c t).length ≤ rh.length := by
      rcases i2 with h | h
      · rw [h, starLit_length]
        omega
      · rw [h]
    have hnhb2 : noHeaderBefore c t rp (rh ++ (rw2 ++ (B2 ++ ('\n' :: rr)))) := by
      intro p₁ p₂ hsp hpne
      have horig := i6 p₁ p₂ hsp hpne
      have hL : (starLit c t).length ≤ (p₂ ++ rh).length := by
        have hp2 : 1 ≤ p₂.length := by
          cases p₂ with
          | nil => exact absurd rfl hpne
          | cons a b => simp
        rw [starLit_length]
        simp only [List.length_append]
        omega
      have htk : (p₂ ++ (rh ++ (rw2 ++ (B2 ++ ('\n' :: rr))))).take (starLit c t).length
          = (p₂ ++ (rh ++ (rw2 ++ (rb ++ rr)))).take (starLit c t).length := by
        rw [← List.append_assoc, ← List.append_assoc p₂ rh,
          List.take_append_of_le_length hL, List.take_append_of_le_length hL]
      exact (headerAt_ext htk).trans horig
    have hloc2 := locateFrom_complete rp hnhb2 hhd2
      (by rw [hdrop, hdw]; exact hfs2)
    rw [htake, hdrop, htw] at hloc2
    rw [hR1]
    refine ⟨?_, ?_⟩
    · unfold replace_section
      simp only [hloc2, ← hB2]
      simp [List.append_assoc]
    · intro _
      unfold extract_section_body
      simp only [hloc2, Option.map_some']

/-- Witness for the amended C3: replacing SKILLS with `"Rust, C++"`
(nonempty, no stop token) twice equals replacing it once, and the target
body afterwards is `"Rust, C++\n"`. -/
theorem C3_amended_witness :
    replace_section
      (replace_section
        (lc "\\section{SKILLS}\nPython, Go\n\\section{PROJECTS}\nEnd.\n")
        (lc "SKILLS") (lc "Rust, C++") (lc "section")).1
      (lc "SKILLS") (lc "Rust, C++") (lc "section")
      = replace_section
          (lc "\\section{SKILLS}\nPython, Go\n\\section{PROJECTS}\nEnd.\n")
          (lc "SKILLS") (lc "Rust, C++") (lc "section") ∧
    ((replace_section
        (lc "\\section{SKILLS}\nPython, Go\n\\section{PROJECTS}\nEnd.\n")
        (lc "SKILLS") (lc "Rust, C++") (lc "section")).2 = true →
      extract_section_body
        (replace_section
          (lc "\\section{SKILLS}\nPython, Go\n\\section{PROJECTS}\nEnd.\n")
          (lc "SKILLS") (lc "Rust, C++") (lc "section")).1
        (lc "SKILLS") (lc "section")
        = some (strip (normalize_latex_content (lc "Rust, C++")) ++ ['\n'])) :=
  C3_amended (by decide) (by decide) (by decide)

/-- `re.match(r"\\([a-zA-Z]+)\*?\{([^}]*)\}", stripped)` from
`latex_preview`: backslash, a maximal nonempty letter run, an optional
star, then a brace group with no closing brace inside; returns the command
name and the raw title. -/
def parseHeading (s : List Char) : Option (List Char × List Char) :=
  match s with
  | '\\' :: rest =>
    if (rest.takeWhile Char.isAlpha).isEmpty then none
    else
      match (match rest.dropWhile Char.isAlpha with
             | '*' :: r => r
             | r1 => r1) with
      | '{' :: r3 =>
        match r3.dropWhile (fun d => d != '}') with
        | '}' :: _ => some (rest.takeWhile Char.isAlpha,
            r3.takeWhile (fun d => d != '}'))
        | _ => none
      | _ => none
  | _ => none

/-- `section_cmds` from `latex_preview` in `src/latex_utils.py`. -/
def section_cmds : List (List Char) :=
  [lc "section", lc "subsection", lc "subsubsection", lc "cvsection",
    lc "chapter", lc "sect"]

/-- One iteration of the `latex_preview` loop in `src/latex_utils.py`:
the output lines appended to `out` for one input line. -/
def previewLine (line : List Char) : List (List Char) :=
  let stripped := strip line
  if stripped.isEmpty then []
  else if (lc "%").isPrefixOf stripped then []
  else if (lc "\\documentclass").isPrefixOf stripped then []
  else if (lc "\\usepackage").isPrefixOf stripped then []
  else if (lc "\\begin{document}").isPrefixOf stripped
      || (lc "\\end{document}").isPrefixOf stripped then []
  else
    match parseHeading stripped with
    | some (name, title) =>
      if section_cmds.contains name then
        [[], (strip title).map Char.toUpper,
          List.replicate (strip title).length '-']
      else if (lc "\\item").isPrefixOf stripped then
        [lc "- " ++ (stripped.drop 5).dropWhile isSpace]
      else [stripped]
    | none =>
      if (lc "\\item").isPrefixOf stripped then
        [lc "- " ++ (stripped.drop 5).dropWhile isSpace]
      else [stripped]

/-- `latex_preview` from `src/latex_utils.py`: process every line, join the
emitted lines with newlines, strip the result. -/
def latex_preview (text : List Char) : List Char :=
  strip (joinWith ['\n'] ((splitlines text).flatMap previewLine))

theorem prefix_strip_of_nonspace {p l : List Char} (hp : p ≠ [])
    (hnp : ∀ x ∈ p, isSpace x = false) (h : p.isPrefixOf l = true) :
    p.isPrefixOf (strip l) = true := by
  obtain ⟨t, ht⟩ := List.isPrefixOf_iff_prefix.mp h
  have hl0 : lstrip l = l := by
    cases hpc : p with
    | nil => exact absurd hpc hp
    | cons p0 pt =>
      rw [← ht, hpc]
      show List.dropWhile isSpace ((p0 :: pt) ++ t) = (p0 :: pt) ++ t
      rw [List.cons_append, List.dropWhile_cons,
        if_neg (by rw [hnp p0 (by rw [hpc]; simp)]; simp)]
  unfold strip
  rw [hl0]
  obtain ⟨d1, d2⟩ := rstrip_decomp l
  have hpl : p <+: l := List.isPrefixOf_iff_prefix.mp h
  have hrl : rstrip l <+: l := ⟨(l.reverse.takeWhile isSpace).reverse, d1.symm⟩
  by_cases hlen : p.length ≤ (rstrip l).length
  · exact List.isPrefixOf_iff_prefix.mpr
      (List.prefix_of_prefix_length_le hpl hrl hlen)
  · exfalso
    push_neg at hlen
    obtain ⟨m, hm⟩ := List.prefix_of_prefix_length_le hrl hpl (le_of_lt hlen)
    have hmne : m ≠ [] := by
      intro habs
      rw [habs] at hm
      simp only [List.append_nil] at hm
      rw [← hm] at hlen
      omega
    have h2 : l = rstrip l ++ (m ++ t) := by
      conv_lhs => rw [← ht]
      rw [← hm, List.append_assoc]
    have htws : (l.reverse.takeWhile isSpace).reverse = m ++ t :=
      List.append_cancel_left (d1.symm.trans h2)
    cases m with
    | nil => exact hmne rfl
    | cons m0 mt =>
      have hsp : isSpace m0 = true := by
        apply d2
        rw [htws]
        simp
      have hinp : m0 ∈ p := by
        rw [← hm]
        simp
      rw [hnp m0 hinp] at hsp
      exact absurd hsp (by simp)

theorem previewLine_eq_nil_of (l : List Char)
    (h : (strip l).isEmpty = true ∨
      (lc "%").isPrefixOf (strip l) = true ∨
      (lc "\\documentclass").isPrefixOf (strip l) = true ∨
      (lc "\\usepackage").isPrefixOf (strip l) = true ∨
      (lc "\\begin{document}").isPrefixOf (strip l) = true ∨
      (lc "\\end{document}").isPrefixOf (strip l) = true) :
    previewLine l = [] := by
  simp only [previewLine]
  split_ifs with h1 h2 h3 h4 h5 h6 <;>
    first
    | rfl
    | (exfalso
       simp only [Bool.or_eq_true, not_or] at h5
       rcases h with h | h | h | h | h | h
       · exact h1 h
       · exact h2 h
       · exact h3 h
       · exact h4 h
       · exact h5.1 h
       · exact h5.2 h)

/-- Claim C8: the Preview Renderer emits no output line for an input line
that is blank after trimming, that starts with the comment marker `%`, or
that is (starts as) a `\documentclass`, `\usepackage`, `\begin{document}`
or `\end{document}` marker: `previewLine` — the per-line loop body of
`latex_preview` — produces nothing for such lines. -/
theorem C8_preview_drops_boilerplate (l : List Char)
    (h : strip l = [] ∨
      (lc "%").isPrefixOf l = true ∨
      (lc "\\documentclass").isPrefixOf l = true ∨
      (lc "\\usepackage").isPrefixOf l = true ∨
      (lc "\\begin{document}").isPrefixOf l = true ∨
      (lc "\\end{document}").isPrefixOf l = true) :
    previewLine l = [] := by
  apply previewLine_eq_nil_of
  rcases h with h | h | h | h | h | h
  · left; rw [h]; rfl
  · exact Or.inr (Or.inl (prefix_strip_of_nonspace (by decide) (by decide) h))
  · exact Or.inr (Or.inr (Or.inl
      (prefix_strip_of_nonspace (by decide) (by decide) h)))
  · exact Or.inr (Or.inr (Or.inr (Or.inl
      (prefix_strip_of_nonspace (by decide) (by decide) h))))
  · exact Or.inr (Or.inr (Or.inr (Or.inr (Or.inl
      (prefix_strip_of_nonspace (by decide) (by decide) h)))))
  · exact Or.inr (Or.inr (Or.inr (Or.inr (Or.inr
      (prefix_strip_of_nonspace (by decide) (by decide) h)))))

/-- Witness for C8: a comment line, an indented blank line and a
`\usepackage` line each emit nothing. -/
theorem C8_preview_drops_boilerplate_witness :
    previewLine (lc "% a comment") = [] ∧
    previewLine (lc "   ") = [] ∧
    previewLine (lc "\\usepackage{geometry}") = [] :=
  ⟨C8_preview_drops_boilerplate (lc "% a comment")
      (Or.inr (Or.inl (by decide))),
    C8_preview_drops_boilerplate (lc "   ") (Or.inl (by decide)),
    C8_preview_drops_boilerplate (lc "\\usepackage{geometry}")
      (Or.inr (Or.inr (Or.inr (Or.inl (by decide)))))⟩

/-- Retained content for the order-preservation property: characters that
are neither whitespace (rewritten by steps 5-6 of the reducer) nor the
dash (inserted by the bullet rewriting of step 2). -/
def keepCh (c : Char) : Bool := !(isSpace c) && !(c == '-')

/-- Step 1 of `strip_latex_to_plain`: drop every line whose stripped form
starts with `%`, rejoin with newlines. -/
def removeCommentLines (t : List Char) : List Char :=
  joinWith ['\n'] ((splitlines t).filter
    (fun l => !((lc "%").isPrefixOf (strip l))))

/-- Step 2 of `strip_latex_to_plain`: `re.sub(r"\\item\s*", "- ", text)`;
fuel-indexed scanner (`fuel ≥ length` suffices; fuel `0` returns the text
unchanged). -/
def subItemF : Nat → List Char → List Char
  | 0, s => s
  | _ + 1, [] => []
  | f + 1, c :: rest =>
    if (lc "\\item").isPrefixOf (c :: rest) then
      lc "- " ++ subItemF f ((rest.drop 4).dropWhile isSpace)
    else c :: subItemF f rest

def subItem (s : List Char) : List Char := subItemF s.length s

/-- The `\*?` part of the command patterns: consume an optional star. -/
def starPeel (l : List Char) : List Char :=
  match l with
  | '*' :: r => r
  | r1 => r1

/-- The `(?:\[[^\]]*\])?` part: consume an optional complete bracket group;
`none` when a `[` is present but never closed (then the optional group
cannot match and the following `\{` fails on the `[`). -/
def bracketPeel (l : List Char) : Option (List Char) :=
  match l with
  | '[' :: r =>
    (match r.dropWhile (fun d => d != ']') with
     | ']' :: r2 => some r2
     | _ => none)
  | r2 => some r2

/-- Match of `\\[a-zA-Z]+\*?(?:\[[^\]]*\])?\{([^}]*)\}` at the start of
`s`: backslash, maximal nonempty letter run, optional star, optional
bracket group, then a brace group; returns the brace-group content
(group 1, the replacement) and the remainder after the match. -/
def matchCmdArg (s : List Char) : Option (List Char × List Char) :=
  match s with
  | '\\' :: rest =>
    if (rest.takeWhile Char.isAlpha).isEmpty then none
    else
      match bracketPeel (starPeel (rest.dropWhile Char.isAlpha)) with
      | some ('{' :: r4) =>
        (match r4.dropWhile (fun d => d != '}') with
         | '}' :: r5 => some (r4.takeWhile (fun d => d != '}'), r5)
         | _ => none)
      | _ => none
  | _ => none

/-- Step 3 of `strip_latex_to_plain`:
`re.sub(r"\\[a-zA-Z]+\*?(?:\[[^\]]*\])?\{([^}]*)\}", r"\1", text)` —
left-to-right, non-overlapping, each match replaced by its brace-group
content; fuel-indexed scanner. -/
def subCmdArgF : Nat → List Char → List Char
  | 0, s => s
  | _ + 1, [] => []
  | f + 1, c :: rest =>
    match matchCmdArg (c :: rest) with
    | some (arg, rem) => arg ++ subCmdArgF f rem
    | none => c :: subCmdArgF f rest

def subCmdArg (s : List Char) : List Char := subCmdArgF s.length s

/-- Step 4 of `strip_latex_to_plain`: `re.sub(r"\\[a-zA-Z]+(\*?)", "", text)`
— delete every backslash followed by a nonempty letter run and an optional
star; fuel-indexed scanner. -/
def subBareCmdF : Nat → List Char → List Char
  | 0, s => s
  | _ + 1, [] => []
  | f + 1, c :: rest =>
    if c = '\\' && !(rest.takeWhile Char.isAlpha).isEmpty then
      subBareCmdF f (starPeel (rest.dropWhile Char.isAlpha))
    else c :: subBareCmdF f rest

def subBareCmd (s : List Char) : List Char := subBareCmdF s.length s

/-- `c` is a space or a tab (the class `[ \t]`). -/
def isBlankHT (c : Char) : Bool := c = ' ' || c = '\t'

/-- Step 5 of `strip_latex_to_plain`: `re.sub(r"[ \t]+", " ", text)` —
every maximal run of spaces/tabs becomes one space (`inRun` tracks whether
the current character continues a run). -/
def collapseSpacesAux (inRun : Bool) : List Char → List Char
  | [] => []
  | c :: rest =>
    if isBlankHT c then
      if inRun then collapseSpacesAux true rest
      else ' ' :: collapseSpacesAux true rest
    else c :: collapseSpacesAux false rest

def collapseSpaces (s : List Char) : List Char := collapseSpacesAux false s

/-- Step 6 of `strip_latex_to_plain`: `re.sub(r"\n\s*\n+", "\n\n", text)`.
A match starts at a newline whose following whitespace run contains another
newline; it extends through the *last* newline of that run (`\s*` backtracks
so the trailing `\n+` is maximal) and is replaced by two newlines; scanning
resumes after the match. -/
def collapseNLF : Nat → List Char → List Char
  | 0, s => s
  | _ + 1, [] => []
  | f + 1, c :: rest =>
    if c = '\n' && (rest.takeWhile isSpace).contains '\n' then
      '\n' :: '\n' :: collapseNLF f
        (((rest.takeWhile isSpace).reverse.takeWhile (fun d => d != '\n')).reverse
          ++ rest.dropWhile isSpace)
    else c :: collapseNLF f rest

def collapseNL (s : List Char) : List Char := collapseNLF s.length s

/-- `strip_latex_to_plain` from `src/latex_utils.py`: drop comment lines,
`\item` to bullets, one-argument commands collapsed to their argument,
bare commands deleted, horizontal whitespace runs to one space, blank-line
runs to one blank line, then strip. -/
def strip_latex_to_plain (text : List Char) : List Char :=
  strip (collapseNL (collapseSpaces (subBareCmd (subCmdArg
    (subItem (removeCommentLines text))))))

theorem flatten_sublist_of_sublist {ls₁ ls₂ : List (List Char)}
    (h : List.Sublist ls₁ ls₂) : List.Sublist ls₁.flatten ls₂.flatten := by
  induction h with
  | slnil => exact List.Sublist.refl _
  | cons a h ih =>
    rw [List.flatten_cons]
    exact ih.trans (List.sublist_append_right _ _)
  | cons₂ a h ih =>
    rw [List.flatten_cons, List.flatten_cons]
    exact (List.append_sublist_append_left a).mpr ih

theorem filter_joinWith_nl (ls : List (List Char)) :
    (joinWith ['\n'] ls).filter keepCh = ls.flatten.filter keepCh := by
  induction ls with
  | nil => rfl
  | cons x xs ih =>
    cases xs with
    | nil => simp [joinWith]
    | cons y ys =>
      show ((x ++ ['\n'] ++ joinWith ['\n'] (y :: ys)).filter keepCh) = _
      have h0 : List.filter keepCh ['\n'] = [] := by decide
      simp only [List.filter_append, h0, List.append_nil, List.nil_append,
        List.flatten_cons, ih]

theorem splitlinesAux_eq5 (acc : List Char) (c : Char) (rest : List Char)
    (h1 : c ≠ '\r') (h2 : c ≠ '\n') :
    splitlinesAux acc (c :: rest) = splitlinesAux (c :: acc) rest := by
  conv_lhs => unfold splitlinesAux
  split
  · rename_i heq; exact absurd heq (by simp)
  · rename_i r heq
    rw [List.cons.injEq] at heq
    exact absurd heq.1 h1
  · rename_i r heq
    rw [List.cons.injEq] at heq
    exact absurd heq.1 h1
  · rename_i r heq
    rw [List.cons.injEq] at heq
    exact absurd heq.1 h2
  · rename_i c2 r2 hx heq
    rw [List.cons.injEq] at heq
    rw [heq.1, heq.2]

theorem splitlinesAux_eq3 (acc : List Char) (rest : List Char)
    (hne : ∀ r, rest = '\n' :: r → False) :
    splitlinesAux acc ('\r' :: rest) = acc.reverse :: splitlinesAux [] rest := by
  conv_lhs => unfold splitlinesAux
  split
  · rename_i heq; exact absurd heq (by simp)
  · rename_i r heq
    rw [List.cons.injEq] at heq
    exact (hne r heq.2).elim
  · rename_i r heq
    rw [List.cons.injEq] at heq
    rw [heq.2]
  · rename_i r heq
    rw [List.cons.injEq] at heq
    exact absurd heq.1 (by decide)
  · rename_i c2 r2 hx1 hx2 hx3 heq
    rw [List.cons.injEq] at heq
    exact absurd heq.1.symm (by intro h; exact hx2 h)

theorem splitlinesAux_flatten_sublist (acc t : List Char) :
    List.Sublist (splitlinesAux acc t).flatten (acc.reverse ++ t) := by
  induction acc, t using splitlinesAux.induct with
  | case1 acc h =>
    unfold splitlinesAux
    rw [if_pos h]
    simp
  | case2 acc h =>
    unfold splitlinesAux
    rw [if_neg h]
    simp
  | case3 acc rest ih =>
    show List.Sublist (acc.reverse :: splitlinesAux [] rest).flatten
      (acc.reverse ++ ('\r' :: '\n' :: rest))
    rw [List.flatten_cons]
    refine (List.append_sublist_append_left _).mpr ?_
    simp only [List.reverse_nil, List.nil_append] at ih
    exact ih.trans ((List.sublist_cons_self '\n' rest).trans
      (List.sublist_cons_self '\r' _))
  | case4 acc rest hne ih =>
    rw [splitlinesAux_eq3 acc rest (fun r h => hne r h), List.flatten_cons]
    refine (List.append_sublist_append_left _).mpr ?_
    simp only [List.reverse_nil, List.nil_append] at ih
    exact ih.trans (List.sublist_cons_self '\r' rest)
  | case5 acc rest ih =>
    show List.Sublist (acc.reverse :: splitlinesAux [] rest).flatten
      (acc.reverse ++ ('\n' :: rest))
    rw [List.flatten_cons]
    refine (List.append_sublist_append_left _).mpr ?_
    simp only [List.reverse_nil, List.nil_append] at ih
    exact ih.trans (List.sublist_cons_self '\n' rest)
  | case6 acc c rest hne1 hne2 hne3 ih =>
    rw [splitlinesAux_eq5 acc c rest (fun h => hne2 h) (fun h => hne3 h)]
    refine ih.trans ?_
    rw [List.reverse_cons, List.append_assoc]
    exact List.Sublist.refl _

theorem removeCommentLines_filter_sublist (t : List Char) :
    List.Sublist ((removeCommentLines t).filter keepCh) (t.filter keepCh) := by
  unfold removeCommentLines
  rw [filter_joinWith_nl]
  refine List.Sublist.trans ?_
    (List.Sublist.filter keepCh (splitlinesAux_flatten_sublist [] t))
  exact List.Sublist.filter keepCh
    (flatten_sublist_of_sublist (List.filter_sublist _))

theorem starPeel_suffix (l : List Char) : List.IsSuffix (starPeel l) l := by
  unfold starPeel
  split
  · exact List.suffix_cons _ _
  · exact List.suffix_refl _

theorem bracketPeel_suffix {l out : List Char} (h : bracketPeel l = some out) :
    List.IsSuffix out l := by
  unfold bracketPeel at h
  split at h
  · rename_i r
    split at h
    · rename_i r2 heq
      simp only [Option.some.injEq] at h
      rw [← h]
      have h1 : List.IsSuffix r2 (']' :: r2) := List.suffix_cons _ _
      have h2 : List.IsSuffix (']' :: r2) r := by
        rw [← heq]
        exact List.dropWhile_suffix _
      exact (h1.trans h2).trans (List.suffix_cons '[' r)
    · exact absurd h (by simp)
  · simp only [Option.some.injEq] at h
    rw [← h]

theorem matchCmdArg_spec {s arg rem : List Char}
    (h : matchCmdArg s = some (arg, rem)) :
    List.Sublist (arg ++ rem) s ∧ rem.length < s.length := by
  unfold matchCmdArg at h
  split at h
  · rename_i rest
    split at h
    · exact absurd h (by simp)
    · split at h
      · rename_i r4 heq2
        split at h
        · rename_i r5 heq3
          simp only [Option.some.injEq, Prod.mk.injEq] at h
          obtain ⟨ha, hr⟩ := h
          have h4a : r4 = r4.takeWhile (fun d => d != '}') ++ ('}' :: r5) := by
            conv_lhs => rw [← List.takeWhile_append_dropWhile
              (fun d => d != '}') r4]
            rw [heq3]
          have hsub1 : List.Sublist
              (r4.takeWhile (fun d => d != '}') ++ r5) r4 := by
            conv_rhs => rw [h4a]
            exact (List.append_sublist_append_left _).mpr
              (List.sublist_cons_self '}' r5)
          have hsuf4 : List.IsSuffix r4 rest := by
            have hs2 := bracketPeel_suffix heq2
            have hs3 : List.IsSuffix r4 ('{' :: r4) := List.suffix_cons _ _
            exact ((hs3.trans hs2).trans (starPeel_suffix _)).trans
              (List.dropWhile_suffix _)
          rw [← ha, ← hr]
          constructor
          · exact (hsub1.trans hsuf4.sublist).trans
              (List.sublist_cons_self '\\' rest)
          · have hl1 : r5.length < r4.length := by
              have := congrArg List.length h4a
              simp only [List.length_append, List.length_cons] at this
              omega
            have hl2 := hsuf4.length_le
            simp only [List.length_cons]
            omega
        · exact absurd h (by simp)
      · exact absurd h (by simp)
  · exact absurd h (by simp)

theorem subItemF_filter_sublist :
    ∀ (f : Nat) (s : List Char),
      List.Sublist ((subItemF f s).filter keepCh) (s.filter keepCh) := by
  intro f
  induction f with
  | zero => intro s; exact List.Sublist.refl _
  | succ f ih =>
    intro s
    cases s with
    | nil => exact List.Sublist.refl _
    | cons c rest =>
      simp only [subItemF]
      by_cases hi : (lc "\\item").isPrefixOf (c :: rest) = true
      · rw [if_pos hi, List.filter_append]
        have h0 : List.filter keepCh (lc "- ") = [] := by decide
        rw [h0, List.nil_append]
        refine (ih _).trans ?_
        refine List.Sublist.filter keepCh ?_
        exact ((List.dropWhile_sublist _).trans (List.drop_sublist _ _)).trans
          (List.sublist_cons_self c rest)
      · rw [if_neg hi, List.filter_cons, List.filter_cons]
        by_cases hk : keepCh c = true
        · rw [if_pos hk, if_pos hk]
          exact (ih rest).cons₂ c
        · rw [if_neg hk, if_neg hk]
          exact ih rest

theorem subCmdArgF_filter_sublist :
    ∀ (f : Nat) (s : List Char),
      List.Sublist ((subCmdArgF f s).filter keepCh) (s.filter keepCh) := by
  intro f
  induction f with
  | zero => intro s; exact List.Sublist.refl _
  | succ f ih =>
    intro s
    cases s with
    | nil => exact List.Sublist.refl _
    | cons c rest =>
      simp only [subCmdArgF]
      cases hm : matchCmdArg (c :: rest) with
      | some pr =>
        obtain ⟨arg, rem⟩ := pr
        obtain ⟨hs1, _⟩ := matchCmdArg_spec hm
        rw [List.filter_append]
        refine List.Sublist.trans ?_ (List.Sublist.filter keepCh hs1)
        rw [List.filter_append]
        exact (List.append_sublist_append_left _).mpr (ih rem)
      | none =>
        rw [List.filter_cons, List.filter_cons]
        by_cases hk : keepCh c = true
        · rw [if_pos hk, if_pos hk]
          exact (ih rest).cons₂ c
        · rw [if_neg hk, if_neg hk]
          exact ih rest

theorem subBareCmdF_filter_sublist :
    ∀ (f : Nat) (s : List Char),
      List.Sublist ((subBareCmdF f s).filter keepCh) (s.filter keepCh) := by
  intro f
  induction f with
  | zero => intro s; exact List.Sublist.refl _
  | succ f ih =>
    intro s
    cases s with
    | nil => exact List.Sublist.refl _
    | cons c rest =>
      simp only [subBareCmdF]
      by_cases hb : (c = '\\' && !(rest.takeWhile Char.isAlpha).isEmpty) = true
      · rw [if_pos hb]
        refine (ih _).trans ?_
        refine List.Sublist.filter keepCh ?_
        exact ((starPeel_suffix _).sublist.trans
          (List.dropWhile_sublist _)).trans (List.sublist_cons_self c rest)
      · rw [if_neg hb, List.filter_cons, List.filter_cons]
        by_cases hk : keepCh c = true
        · rw [if_pos hk, if_pos hk]
          exact (ih rest).cons₂ c
        · rw [if_neg hk, if_neg hk]
          exact ih rest

theorem keepCh_false_of_blank {c : Char} (h : isBlankHT c = true) :
    keepCh c = false := by
  unfold isBlankHT at h
  simp only [Bool.or_eq_true, decide_eq_true_eq] at h
  rcases h with h | h <;> rw [h] <;> decide

theorem collapseSpacesAux_filter_sublist :
    ∀ (s : List Char) (b : Bool),
      List.Sublist ((collapseSpacesAux b s).filter keepCh) (s.filter keepCh) := by
  intro s
  induction s with
  | nil => intro b; exact List.Sublist.refl _
  | cons c rest ih =>
    intro b
    simp only [collapseSpacesAux]
    by_cases hb : isBlankHT c = true
    · rw [if_pos hb]
      have hkc : keepCh c = false := keepCh_false_of_blank hb
      have htgt : List.filter keepCh (c :: rest) = List.filter keepCh rest := by
        rw [List.filter_cons, if_neg (by rw [hkc]; simp)]
      rw [htgt]
      cases b with
      | true =>
        rw [if_pos rfl]
        exact ih true
      | false =>
        rw [if_neg (by simp), List.filter_cons, if_neg (by decide)]
        exact ih true
    · rw [if_neg hb, List.filter_cons, List.filter_cons]
      by_cases hk : keepCh c = true
      · rw [if_pos hk, if_pos hk]
        exact (ih false).cons₂ c
      · rw [if_neg hk, if_neg hk]
        exact ih false

theorem collapseNLF_filter_sublist :
    ∀ (f : Nat) (s : List Char),
      List.Sublist ((collapseNLF f s).filter keepCh) (s.filter keepCh) := by
  intro f
  induction f with
  | zero => intro s; exact List.Sublist.refl _
  | succ f ih =>
    intro s
    cases s with
    | nil => exact List.Sublist.refl _
    | cons c rest =>
      simp only [collapseNLF]
      by_cases hc : (c = '\n' && (rest.takeWhile isSpace).contains '\n') = true
      · rw [if_pos hc]
        simp only [Bool.and_eq_true, decide_eq_true_eq] at hc
        rw [List.filter_cons, List.filter_cons,
          if_neg (by decide : ¬ keepCh '\n' = true),
          if_neg (by decide : ¬ keepCh '\n' = true)]
        have hkc : keepCh c = false := by rw [hc.1]; decide
        have htgt : List.filter keepCh (c :: rest) = List.filter keepCh rest := by
          rw [List.filter_cons, if_neg (by rw [hkc]; simp)]
        rw [htgt]
        refine (ih _).trans ?_
        refine List.Sublist.filter keepCh ?_
        have hrun : rest.takeWhile isSpace
            = ((rest.takeWhile isSpace).reverse.dropWhile
                (fun d => d != '\n')).reverse
              ++ ((rest.takeWhile isSpace).reverse.takeWhile
                (fun d => d != '\n')).reverse := by
          conv_lhs => rw [← List.reverse_reverse (rest.takeWhile isSpace)]
          conv_lhs =>
            rw [← List.takeWhile_append_dropWhile (fun d => d != '\n')
              (rest.takeWhile isSpace).reverse]
          rw [List.reverse_append]
        have hrest : rest
            = ((rest.takeWhile isSpace).reverse.dropWhile
                (fun d => d != '\n')).reverse
              ++ (((rest.takeWhile isSpace).reverse.takeWhile
                (fun d => d != '\n')).reverse
                ++ rest.dropWhile isSpace) := by
          conv_lhs => rw [← List.takeWhile_append_dropWhile isSpace rest]
          conv_lhs => rw [hrun]
          rw [List.append_assoc]
        conv_rhs => rw [hrest]
        exact List.sublist_append_right _ _
      · rw [if_neg hc, List.filter_cons, List.filter_cons]
        by_cases hk : keepCh c = true
        · rw [if_pos hk, if_pos hk]
          exact (ih rest).cons₂ c
        · rw [if_neg hk, if_neg hk]
          exact ih rest

theorem strip_sublist (s : List Char) : List.Sublist (strip s) s := by
  unfold strip
  have h1 : List.Sublist (rstrip (lstrip s)) (lstrip s) := by
    obtain ⟨d1, _⟩ := rstrip_decomp (lstrip s)
    conv_rhs => rw [d1]
    exact List.sublist_append_left _ _
  exact h1.trans (List.dropWhile_sublist _)

/-- Claim C9: the Plain-Text Reducer is order-preserving on retained
content — the sequence of retained characters (non-whitespace and not the
inserted bullet dash) of `strip_latex_to_plain text` is a subsequence of
the retained characters of `text`, in the same relative order.  Every
rewriting pass only deletes spans, copies a contiguous span in place
(`\textbf{API}` → `API`), or inserts whitespace/dashes, so retained words
never reorder. -/
theorem C9_order_preserving (text : List Char) :
    List.Sublist ((strip_latex_to_plain text).filter keepCh)
      (text.filter keepCh) := by
  unfold strip_latex_to_plain
  refine (List.Sublist.filter keepCh (strip_sublist _)).trans ?_
  refine (collapseNLF_filter_sublist _ _).trans ?_
  refine (collapseSpacesAux_filter_sublist _ _).trans ?_
  refine (subBareCmdF_filter_sublist _ _).trans ?_
  refine (subCmdArgF_filter_sublist _ _).trans ?_
  refine (subItemF_filter_sublist _ _).trans ?_
  exact removeCommentLines_filter_sublist text
